import Mathlib

/-!
# Order book matching engine

A shallow embedding of `process_order`, `submit_order`, `matching_engine` and the
connection handler of `src/server/main.cpp` (the copy of `process_order` in
`src/orderbook/server/main.cpp` is textually the same), with the properties of
the price level ledger, the matching loop and the single-writer queue.

Conventions of the embedding.

* A `std::map<double, int, Compare>` is the list of its entries in iteration
  order, so `begin()` is the head of the list and `erase(begin())` drops it.
  The representation invariant of `std::map` (keys strictly increasing with
  respect to `Compare`) is the predicate `Sorted`.
* Prices are taken from an arbitrary linearly ordered type.
* Quantities are 32-bit `int` in the source.  Here they are integers, and the one
  operation that can leave the `int` range, the addition in `m[k] += q`, is
  reduced into the range with `wrapInt`, the two's complement result that the
  target machine produces.  The subtraction `it->second -= match_qty` of the
  matching loop subtracts `min(order.quantity, it->second)` with a positive
  `order.quantity`, so it stays between `0` and `it->second` and needs no
  reduction.
-/

namespace OrderBook

/-! ## Definitions -/

/-- Entries of a `std::map<double, int, Compare>` in iteration order. -/
abbrev Levels (α : Type) := List (α × Int)

/-- The record `struct Order`: side string, price, quantity. -/
structure Order (α : Type) where
  side : String
  price : α
  quantity : Int
deriving DecidableEq, Repr

/-- The two global maps: `buy_book` iterates by descending price
(`std::greater<double>`), `sell_book` by ascending price. -/
structure Book (α : Type) where
  buy_book : Levels α
  sell_book : Levels α
deriving DecidableEq, Repr

/-- The state of both maps at program start. -/
def Book.empty {α : Type} : Book α := ⟨[], []⟩

/-- Comparator `std::less<double>` of `sell_book`. -/
def less {α : Type} [LinearOrder α] (a b : α) : Bool := decide (a < b)

/-- Comparator `std::greater<double>` of `buy_book`. -/
def greater {α : Type} [LinearOrder α] (a b : α) : Bool := decide (a > b)

/-- The least value of a 32-bit `int`. -/
def INT_MIN : Int := -2147483648

/-- The greatest value of a 32-bit `int`. -/
def INT_MAX : Int := 2147483647

/-- The 32-bit `int` that an addition leaves in the machine: the exact sum reduced modulo
`2^32` into the range from `INT_MIN` to `INT_MAX`. -/
def wrapInt (x : Int) : Int := (x + 2147483648) % 4294967296 - 2147483648

/-- The value lies in the range of a 32-bit `int`. -/
def inIntRange (x : Int) : Bool := decide (INT_MIN ≤ x) && decide (x ≤ INT_MAX)

/-- The statement `m[k] += q` on a map with comparator `comp`: the entry whose key is
equivalent to `k` (neither ordered before the other) gets `q` added in `int`
arithmetic; when there is none, `operator[]` first inserts `k` with the
value-initialised quantity `0` at its place in the order. -/
def addAt {α : Type} (comp : α → α → Bool) (k : α) (q : Int) : Levels α → Levels α
  | [] => [(k, wrapInt (0 + q))]
  | (k', v) :: rest =>
    if comp k k' then (k, wrapInt (0 + q)) :: (k', v) :: rest
    else if comp k' k then (k', v) :: addAt comp k q rest
    else (k', wrapInt (v + q)) :: rest

/-- Guard of the matching `while` loop:
`!book.empty() && <price test on book.begin()->first> && order.quantity > 0`. -/
def loopGuard {α : Type} (crosses : α → Bool) (quantity : Int) : Levels α → Bool
  | [] => false
  | (k, _) :: _ => crosses k && decide (quantity > 0)

/-- Body of the matching `while` loop:
`it = book.begin(); match_qty = min(order.quantity, it->second);`
`it->second -= match_qty; if (it->second == 0) book.erase(it);`. -/
def loopBody {α : Type} (quantity : Int) : Levels α → Levels α
  | [] => []
  | (k, v) :: rest =>
    let match_qty := min quantity v
    let v' := v - match_qty
    if v' = 0 then rest else (k, v') :: rest

/-- Number of entries plus the positive parts of the quantities; it decreases with
every iteration of the matching loop. -/
def loopMeasure {α : Type} : Levels α → Nat
  | [] => 0
  | (_, v) :: rest => v.toNat + 1 + loopMeasure rest

/-- The matching `while` loop: the body is repeated as long as the guard holds. -/
def matchLoop {α : Type} (crosses : α → Bool) (quantity : Int) (book : Levels α) : Levels α :=
  if h : loopGuard crosses quantity book = true then
    matchLoop crosses quantity (loopBody quantity book)
  else book
termination_by loopMeasure book
decreasing_by
  cases book with
  | nil => simp [loopGuard] at h
  | cons e rest =>
    obtain ⟨k, v⟩ := e
    simp only [loopGuard, Bool.and_eq_true, decide_eq_true_eq] at h
    simp only [loopBody]
    split
    · simp only [loopMeasure]; omega
    · rename_i hne
      simp only [loopMeasure]
      rcases le_total quantity v with hle | hle
      · rw [min_eq_left hle] at hne ⊢
        omega
      · rw [min_eq_right hle] at hne
        simp at hne

/-- The function `process_order`, on the pair of maps it mutates. -/
def process_order {α : Type} [LinearOrder α] (book : Book α) (order : Order α) : Book α :=
  if order.side = "buy" then
    let sell_book := matchLoop (fun k => decide (order.price ≥ k)) order.quantity book.sell_book
    if order.quantity > 0 then
      ⟨addAt greater order.price order.quantity book.buy_book, sell_book⟩
    else ⟨book.buy_book, sell_book⟩
  else if order.side = "sell" then
    let buy_book := matchLoop (fun k => decide (order.price ≤ k)) order.quantity book.buy_book
    if order.quantity > 0 then
      ⟨buy_book, addAt less order.price order.quantity book.sell_book⟩
    else ⟨buy_book, book.sell_book⟩
  else book

/-- Orders applied one after another with `process_order`. -/
def applyAll {α : Type} [LinearOrder α] (book : Book α) (orders : List (Order α)) : Book α :=
  orders.foldl process_order book

/-- Representation invariant of a `std::map` with comparator `comp`: the keys are
strictly increasing with respect to `comp` in iteration order. -/
def Sorted {α : Type} (comp : α → α → Bool) (l : Levels α) : Prop :=
  l.Pairwise (fun a b => comp a.1 b.1 = true)

/-- Representation invariant of the two global maps. -/
def Book.WF {α : Type} [LinearOrder α] (book : Book α) : Prop :=
  Sorted greater book.buy_book ∧ Sorted less book.sell_book

/-- Every stored level has a strictly positive quantity. -/
def Positive {α : Type} (l : Levels α) : Prop := ∀ e ∈ l, 0 < e.2

/-- The lookup `m.find(k)`: the quantity stored at price `k`, if the level exists. -/
def level? {α : Type} [DecidableEq α] (k : α) : Levels α → Option Int
  | [] => none
  | (k', v) :: rest => if k' = k then some v else level? k rest

/-- Quantity resting at price `k`, `0` when the level is absent. -/
def quantityAt {α : Type} [DecidableEq α] (k : α) (l : Levels α) : Int :=
  (level? k l).getD 0

/-- Total quantity resting on one side. -/
def totalQty {α : Type} (l : Levels α) : Int := (l.map Prod.snd).sum

/-- The aggregate that the call `process_order(order)` computes when it rests the order,
the previous quantity at the order's price plus the order's quantity, lies in the `int`
range; calls that rest nothing compute no aggregate. -/
def aggregateFits {α : Type} [LinearOrder α] (book : Book α) (order : Order α) : Bool :=
  if order.side = "buy" then
    if order.quantity > 0 then
      inIntRange (quantityAt order.price book.buy_book + order.quantity)
    else true
  else if order.side = "sell" then
    if order.quantity > 0 then
      inIntRange (quantityAt order.price book.sell_book + order.quantity)
    else true
  else true

/-- No aggregated level quantity leaves the `int` range while the orders are applied one
after another with `process_order`. -/
def noOverflow {α : Type} [LinearOrder α] : Book α → List (Order α) → Bool
  | _, [] => true
  | book, order :: rest => aggregateFits book order && noOverflow (process_order book order) rest

/-- What `std::map` requires of its comparator (a strict weak ordering), together with
the fact that two keys neither of which is ordered before the other are equal. -/
structure StrictOrd {α : Type} (comp : α → α → Bool) : Prop where
  irrefl : ∀ a, comp a a = false
  trans : ∀ a b c, comp a b = true → comp b c = true → comp a c = true
  total : ∀ a b, comp a b = false → comp b a = false → a = b

/-- Every bid price is strictly below every ask price. -/
def Uncrossed {α : Type} [LinearOrder α] (book : Book α) : Prop :=
  ∀ x ∈ book.buy_book, ∀ y ∈ book.sell_book, x.1 < y.1

/-- The guard of the loop of the spec's matching algorithm (section 4.2, step 2), on the
remaining quantity `Q` and the opposite side: `Q > 0`, the opposite side is non-empty and
the order is marketable against its best level. -/
def specGuard {α : Type} (marketable : α → Bool) : Int × Levels α → Bool
  | (_, []) => false
  | (Q, (k, _) :: _) => decide (Q > 0) && marketable k

/-- One iteration of the loop of the spec's matching algorithm (steps 2a to 2c):
`fill = min(Q, best.quantity)`, `decrease(opposite, best.price, fill)`, which removes the
level when its quantity becomes 0, and `Q -= fill`. -/
def specBody {α : Type} : Int × Levels α → Int × Levels α
  | (Q, []) => (Q, [])
  | (Q, (k, v) :: rest) =>
    let fill := min Q v
    (Q - fill, if v - fill = 0 then rest else (k, v - fill) :: rest)

/-- The loop of the spec's matching algorithm (section 4.2, step 2). -/
def specLoop {α : Type} (marketable : α → Bool) (st : Int × Levels α) : Int × Levels α :=
  if h : specGuard marketable st = true then specLoop marketable (specBody st) else st
termination_by 2 * st.2.length + (if 0 < st.1 then 1 else 0)
decreasing_by
  obtain ⟨Q, l⟩ := st
  cases l with
  | nil => simp [specGuard] at h
  | cons x rest =>
    obtain ⟨k, v⟩ := x
    simp only [specGuard, Bool.and_eq_true, decide_eq_true_eq] at h
    have hQ : 0 < Q := h.1
    simp only [specBody]
    rcases le_total Q v with hle | hle
    · simp only [min_eq_left hle, sub_self, lt_self_iff_false, if_false, if_pos hQ]
      split <;> simp only [List.length_cons] <;> omega
    · have hv : v - v = 0 := sub_self v
      simp only [min_eq_right hle, if_pos hv, List.length_cons, if_pos hQ]
      split <;> omega

/-- The ledger operation `increase(side, price, qty)` as the spec words it (section
4.1): add `qty` to the level at `price`, creating the level when absent, on a side that
iterates in the order `comp`.  The spec's quantities are integers without a bound. -/
def specIncrease {α : Type} (comp : α → α → Bool) (k : α) (q : Int) : Levels α → Levels α
  | [] => [(k, q)]
  | (k', v) :: rest =>
    if comp k k' then (k, q) :: (k', v) :: rest
    else if comp k' k then (k', v) :: specIncrease comp k q rest
    else (k', v + q) :: rest

/-- The matching algorithm `apply(book, order)` as the spec words it (section 4.2): walk
the opposite side best-first while the remaining quantity is positive and the order is
marketable, then `increase(S, P, Q)` with the unmatched remainder `Q` when `Q > 0`. -/
def spec_apply {α : Type} [LinearOrder α] (book : Book α) (order : Order α) : Book α :=
  if order.side = "buy" then
    let st := specLoop (fun k => decide (order.price ≥ k)) (order.quantity, book.sell_book)
    if st.1 > 0 then ⟨specIncrease greater order.price st.1 book.buy_book, st.2⟩
    else ⟨book.buy_book, st.2⟩
  else if order.side = "sell" then
    let st := specLoop (fun k => decide (order.price ≤ k)) (order.quantity, book.buy_book)
    if st.1 > 0 then ⟨st.2, specIncrease less order.price st.1 book.sell_book⟩
    else ⟨st.2, book.sell_book⟩
  else book

/-- The globals of `src/server/main.cpp` that the engine thread and the producers share:
`order_queue`, `shutdown_engine`, `processed_count` and the two maps (`book`).
`running` tells whether the engine thread is still inside the `while (true)` loop of
`matching_engine`, and `applied` is a history variable listing the orders passed to
`process_order` so far, oldest first. -/
structure Engine (α : Type) where
  order_queue : List (Order α)
  shutdown_engine : Bool
  processed_count : Int
  book : Book α
  running : Bool
  applied : List (Order α)

/-- The state at the start of `main`: empty queue and maps, engine thread started. -/
def Engine.init {α : Type} : Engine α :=
  ⟨[], false, 0, Book.empty, true, []⟩

/-- The function `submit_order`: `order_queue.push_back(order)` under the queue mutex. -/
def submit_order {α : Type} (s : Engine α) (order : Order α) : Engine α :=
  { s with order_queue := s.order_queue ++ [order] }

/-- The shutdown request of `main`: `shutdown_engine.store(true)`. -/
def request_shutdown {α : Type} (s : Engine α) : Engine α :=
  { s with shutdown_engine := true }

/-- One turn of the `while (true)` loop of `matching_engine`.  The wait returns only when
`!order_queue.empty() || shutdown_engine`; until then the thread stays blocked and the
state is unchanged.  With shutdown set and an empty queue the loop is left by `break`;
otherwise the front order is popped, passed to `process_order`, and `processed_count`
is incremented.  Once the loop is left the thread does nothing more. -/
def matching_engine_step {α : Type} [LinearOrder α] (s : Engine α) : Engine α :=
  if s.running then
    match s.order_queue with
    | [] => if s.shutdown_engine then { s with running := false } else s
    | next :: rest =>
      { s with
        order_queue := rest
        book := process_order s.book next
        processed_count := s.processed_count + 1
        applied := s.applied ++ [next] }
  else s

/-- The atomic steps of the system: a producer submits an order, the engine thread takes
one turn of its loop, or `main` requests shutdown. -/
inductive Event (α : Type) where
  | submit (order : Order α)
  | engine
  | shutdown

/-- The effect of one step. -/
def step {α : Type} [LinearOrder α] (s : Engine α) : Event α → Engine α
  | Event.submit order => submit_order s order
  | Event.engine => matching_engine_step s
  | Event.shutdown => request_shutdown s

/-- The state after an interleaving of steps. -/
def runEvents {α : Type} [LinearOrder α] (s : Engine α) (events : List (Event α)) : Engine α :=
  events.foldl step s

/-- The orders submitted in an interleaving, in submission order. -/
def submitted {α : Type} : List (Event α) → List (Order α)
  | [] => []
  | Event.submit order :: rest => order :: submitted rest
  | _ :: rest => submitted rest

/-- The whitespace test of formatted input, `std::isspace` in the default locale:
space, tab, line feed, vertical tab, form feed, carriage return. -/
def isspace (c : Char) : Bool :=
  c.toNat = 32 || (9 ≤ c.toNat && c.toNat ≤ 13)

/-- Leading whitespace skipped by every `operator>>`. -/
def skipWs (cs : List Char) : List Char := cs.dropWhile isspace

/-- The extraction `iss >> side` into a `std::string`: skip whitespace, then take the
characters up to the next whitespace; it fails when no character is left. -/
def readWord (cs : List Char) : Option (String × List Char) :=
  match (skipWs cs).takeWhile (fun c => !isspace c) with
  | [] => none
  | w => some (String.mk w, (skipWs cs).dropWhile (fun c => !isspace c))

/-- The chain `iss >> side >> price >> quantity` on the received text; a failed
extraction leaves the stream failed, so the later ones do nothing and the chain tests
false.  The numeric conversions of the C++ standard library for `double` and `int` are
the parameters `readPrice` and `readInt`: each gets the unread characters after the
leading whitespace and returns the value with the characters it left unread, or nothing
when the conversion fails. -/
def extract {α : Type} (readPrice : List Char → Option (α × List Char))
    (readInt : List Char → Option (Int × List Char)) (line : String) :
    Option (String × α × Int) :=
  match readWord line.toList with
  | none => none
  | some (side, r1) =>
    match readPrice (skipWs r1) with
    | none => none
    | some (price, r2) =>
      match readInt (skipWs r2) with
      | none => none
      | some (quantity, _) => some (side, price, quantity)

/-- The body of the receive loop of `client_handler` in `src/server/main.cpp` for one
received text: the new state of the engine and the reply sent on the socket. -/
def client_handler {α : Type} (readPrice : List Char → Option (α × List Char))
    (readInt : List Char → Option (Int × List Char)) (s : Engine α) (line : String) :
    Engine α × String :=
  match extract readPrice readInt line with
  | some (side, price, quantity) =>
    (submit_order s ⟨side, price, quantity⟩, "Order received\n")
  | none => (s, "Invalid order format\n")

/-- The handling of one received text in `main` of `src/orderbook/server/main.cpp`, which
calls `process_order` directly: the new maps and the reply sent on the socket. -/
def main_handler {α : Type} [LinearOrder α] (readPrice : List Char → Option (α × List Char))
    (readInt : List Char → Option (Int × List Char)) (book : Book α) (line : String) :
    Book α × String :=
  match extract readPrice readInt line with
  | some (side, price, quantity) =>
    (process_order book ⟨side, price, quantity⟩, "Order received\n")
  | none => (book, "Invalid order format\n")

/-- A conversion for unsigned decimal numerals, which stands for the two library
conversions in the examples. -/
def readDecimal (cs : List Char) : Option (Int × List Char) :=
  match cs.takeWhile Char.isDigit with
  | [] => none
  | ds => some (Int.ofNat (ds.foldl (fun n c => 10 * n + (c.toNat - 48)) 0),
      cs.dropWhile Char.isDigit)

/-! ## Theorems -/

/-! ### The matching loop -/

theorem loopBody_measure {α : Type} (crosses : α → Bool) (quantity : Int) (book : Levels α)
    (h : loopGuard crosses quantity book = true) :
    loopMeasure (loopBody quantity book) < loopMeasure book := by
  cases book with
  | nil => simp [loopGuard] at h
  | cons e rest =>
    obtain ⟨k, v⟩ := e
    simp only [loopGuard, Bool.and_eq_true, decide_eq_true_eq] at h
    have hq : 0 < quantity := h.2
    simp only [loopBody]
    split
    · simp only [loopMeasure]; omega
    · rename_i hne
      simp only [loopMeasure]
      rcases le_total quantity v with hle | hle
      · rw [min_eq_left hle] at hne ⊢
        omega
      · rw [min_eq_right hle] at hne
        simp at hne

theorem matchLoop_unfold {α : Type} (crosses : α → Bool) (quantity : Int) (book : Levels α) :
    matchLoop crosses quantity book =
      if loopGuard crosses quantity book = true then
        matchLoop crosses quantity (loopBody quantity book)
      else book := by
  rw [matchLoop]
  split <;> rfl

theorem matchLoop_of_guard_false {α : Type} (crosses : α → Bool) (quantity : Int)
    (book : Levels α) (h : loopGuard crosses quantity book = false) :
    matchLoop crosses quantity book = book := by
  rw [matchLoop_unfold, h]; simp

theorem matchLoop_nonpos {α : Type} (crosses : α → Bool) (quantity : Int) (book : Levels α)
    (hq : quantity ≤ 0) : matchLoop crosses quantity book = book := by
  apply matchLoop_of_guard_false
  cases book with
  | nil => rfl
  | cons e rest =>
    obtain ⟨k, v⟩ := e
    have : ¬ quantity > 0 := by omega
    simp [loopGuard, this]

theorem loopBody_dropWhile {α : Type} (crosses : α → Bool) (quantity : Int) (book : Levels α)
    (h : loopGuard crosses quantity book = true) :
    (loopBody quantity book).dropWhile (fun e => crosses e.1) =
      book.dropWhile (fun e => crosses e.1) := by
  cases book with
  | nil => rfl
  | cons e rest =>
    obtain ⟨k, v⟩ := e
    simp only [loopGuard, Bool.and_eq_true, decide_eq_true_eq] at h
    simp only [loopBody]
    split
    · simp [List.dropWhile, h.1]
    · simp [List.dropWhile, h.1]

/-- With a positive order quantity the loop erases exactly the leading run of
levels whose price crosses the order's price. -/
theorem matchLoop_pos {α : Type} (crosses : α → Bool) (quantity : Int) (hq : 0 < quantity)
    (book : Levels α) :
    matchLoop crosses quantity book = book.dropWhile (fun e => crosses e.1) := by
  generalize hn : loopMeasure book = n
  induction n using Nat.strong_induction_on generalizing book with
  | _ n ih =>
    rw [matchLoop_unfold]
    split
    · rename_i hg
      rw [ih _ (by rw [← hn]; exact loopBody_measure crosses quantity book hg) _ rfl]
      exact loopBody_dropWhile crosses quantity book hg
    · rename_i hg
      cases book with
      | nil => rfl
      | cons e rest =>
        obtain ⟨k, v⟩ := e
        have hc : crosses k = false := by
          simpa [loopGuard, hq] using hg
        simp [List.dropWhile, hc]

/-- The loop is the body iterated until the guard fails, and that takes at most
`loopMeasure book` iterations. -/
theorem matchLoop_iterate {α : Type} (crosses : α → Bool) (quantity : Int) (book : Levels α) :
    ∃ n, n ≤ loopMeasure book ∧
      (∀ i, i < n → loopGuard crosses quantity ((loopBody quantity)^[i] book) = true) ∧
      loopGuard crosses quantity ((loopBody quantity)^[n] book) = false ∧
      matchLoop crosses quantity book = (loopBody quantity)^[n] book := by
  generalize hn : loopMeasure book = m
  induction m using Nat.strong_induction_on generalizing book with
  | _ m ih =>
    by_cases hg : loopGuard crosses quantity book = true
    · have hlt := loopBody_measure crosses quantity book hg
      obtain ⟨n, hle, hall, hstop, heq⟩ := ih _ (by rw [← hn]; exact hlt) _ rfl
      refine ⟨n + 1, by omega, ?_, ?_, ?_⟩
      · intro i hi
        cases i with
        | zero => simpa using hg
        | succ j => simpa [Function.iterate_succ_apply] using hall j (by omega)
      · simpa [Function.iterate_succ_apply] using hstop
      · rw [matchLoop_unfold, if_pos hg, heq, Function.iterate_succ_apply]
    · have hg' : loopGuard crosses quantity book = false := by simpa using hg
      exact ⟨0, Nat.zero_le _, by intro i hi; omega, by simpa using hg',
        by simpa using matchLoop_of_guard_false crosses quantity book hg'⟩

/-! ### Comparators and the ledger operation on one level -/

theorem less_strictOrd {α : Type} [LinearOrder α] : StrictOrd (less : α → α → Bool) where
  irrefl a := by simp [less]
  trans a b c := by
    simp only [less, decide_eq_true_eq]
    exact fun h1 h2 => lt_trans h1 h2
  total a b := by
    simp only [less, decide_eq_false_iff_not, not_lt]
    exact fun h1 h2 => le_antisymm h2 h1

theorem greater_strictOrd {α : Type} [LinearOrder α] : StrictOrd (greater : α → α → Bool) where
  irrefl a := by simp [greater]
  trans a b c := by
    simp only [greater, decide_eq_true_eq, gt_iff_lt]
    exact fun h1 h2 => lt_trans h2 h1
  total a b := by
    simp only [greater, decide_eq_false_iff_not, gt_iff_lt, not_lt]
    exact fun h1 h2 => le_antisymm h1 h2

theorem addAt_keys {α : Type} (comp : α → α → Bool) (k : α) (q : Int)
    (l : Levels α) (e : α × Int) (he : e ∈ addAt comp k q l) :
    e.1 = k ∨ ∃ e', e' ∈ l ∧ e'.1 = e.1 := by
  induction l with
  | nil =>
    simp only [addAt, List.mem_singleton] at he
    left; rw [he]
  | cons x rest ih =>
    obtain ⟨k', v⟩ := x
    simp only [addAt] at he
    split at he
    · rcases List.mem_cons.1 he with h | h
      · left; rw [h]
      · right; exact ⟨e, h, rfl⟩
    · split at he
      · rcases List.mem_cons.1 he with h | h
        · right; exact ⟨(k', v), List.mem_cons_self _ _, by rw [h]⟩
        · rcases ih h with h' | ⟨e', he', hk⟩
          · left; exact h'
          · right; exact ⟨e', List.mem_cons_of_mem _ he', hk⟩
      · rcases List.mem_cons.1 he with h | h
        · right; exact ⟨(k', v), List.mem_cons_self _ _, by rw [h]⟩
        · right; exact ⟨e, List.mem_cons_of_mem _ h, rfl⟩

theorem addAt_sorted {α : Type} (comp : α → α → Bool) (hc : StrictOrd comp) (k : α) (q : Int)
    (l : Levels α) (hl : Sorted comp l) : Sorted comp (addAt comp k q l) := by
  induction l with
  | nil => simp [addAt, Sorted]
  | cons x rest ih =>
    obtain ⟨k', v⟩ := x
    have hl' := List.pairwise_cons.1 hl
    simp only [addAt]
    split
    · rename_i h1
      refine List.pairwise_cons.2 ⟨?_, hl⟩
      intro e he
      rcases List.mem_cons.1 he with h | h
      · rw [h]; exact h1
      · exact hc.trans _ _ _ h1 (hl'.1 e h)
    · split
      · rename_i h1 h2
        refine List.pairwise_cons.2 ⟨?_, ih hl'.2⟩
        intro e he
        rcases addAt_keys comp k q rest e he with h | ⟨e', he', hk⟩
        · show comp k' e.1 = true
          rw [h]; exact h2
        · show comp k' e.1 = true
          rw [← hk]; exact hl'.1 e' he'
      · exact List.pairwise_cons.2 ⟨hl'.1, hl'.2⟩

theorem wrapInt_of_inIntRange (x : Int) (h : inIntRange x = true) : wrapInt x = x := by
  simp only [inIntRange, INT_MIN, INT_MAX, Bool.and_eq_true, decide_eq_true_eq] at h
  simp only [wrapInt]
  omega

theorem quantityAt_nonneg {α : Type} [DecidableEq α] (k : α) (l : Levels α)
    (hl : Positive l) : 0 ≤ quantityAt k l := by
  induction l with
  | nil => simp [quantityAt, level?]
  | cons x rest ih =>
    obtain ⟨k', v⟩ := x
    have hv : 0 < v := hl (k', v) (List.mem_cons_self _ _)
    have hrest : Positive rest := fun e he => hl e (List.mem_cons_of_mem _ he)
    by_cases hk : k' = k
    · simp only [quantityAt, level?, if_pos hk, Option.getD_some]; omega
    · simpa [quantityAt, level?, hk] using ih hrest

theorem addAt_positive {α : Type} [DecidableEq α] (comp : α → α → Bool) (hc : StrictOrd comp)
    (k : α) (q : Int) (hq : 0 < q) (l : Levels α) (hl : Positive l)
    (hfit : inIntRange (quantityAt k l + q) = true) : Positive (addAt comp k q l) := by
  induction l with
  | nil =>
    intro e he
    simp only [addAt, List.mem_singleton] at he
    have h0 : wrapInt (0 + q) = 0 + q :=
      wrapInt_of_inIntRange _ (by simpa [quantityAt, level?] using hfit)
    rw [he]; show 0 < wrapInt (0 + q); omega
  | cons x rest ih =>
    obtain ⟨k', v⟩ := x
    have hv : 0 < v := hl (k', v) (List.mem_cons_self _ _)
    have hrest : Positive rest := fun e he => hl e (List.mem_cons_of_mem _ he)
    have hnn := quantityAt_nonneg k ((k', v) :: rest) hl
    have hfit' := hfit
    simp only [inIntRange, INT_MIN, INT_MAX, Bool.and_eq_true, decide_eq_true_eq] at hfit'
    intro e he
    simp only [addAt] at he
    split at he
    · rcases List.mem_cons.1 he with h | h
      · have h0 : wrapInt (0 + q) = 0 + q := by
          apply wrapInt_of_inIntRange
          simp only [inIntRange, INT_MIN, INT_MAX, Bool.and_eq_true, decide_eq_true_eq]
          omega
        rw [h]; show 0 < wrapInt (0 + q); omega
      · exact hl e h
    · split at he
      · rename_i h1 h2
        have hne : k' ≠ k := by
          intro h; rw [h, hc.irrefl] at h2; exact Bool.noConfusion h2
        have hq' : quantityAt k ((k', v) :: rest) = quantityAt k rest := by
          simp [quantityAt, level?, hne]
        rcases List.mem_cons.1 he with h | h
        · rw [h]; exact hv
        · exact ih hrest (by rw [← hq']; exact hfit) e h
      · rename_i h1 h2
        have hk : k = k' := hc.total k k' (by simpa using h1) (by simpa using h2)
        have hq' : quantityAt k ((k', v) :: rest) = v := by
          simp [quantityAt, level?, hk]
        rcases List.mem_cons.1 he with h | h
        · have h0 : wrapInt (v + q) = v + q :=
            wrapInt_of_inIntRange _ (by rw [← hq']; exact hfit)
          rw [h]; show 0 < wrapInt (v + q); omega
        · exact hrest e h

theorem level?_eq_none_of_not_key {α : Type} [DecidableEq α] (k : α) (l : Levels α)
    (h : ∀ e ∈ l, e.1 ≠ k) : level? k l = none := by
  induction l with
  | nil => rfl
  | cons x rest ih =>
    obtain ⟨k', v⟩ := x
    have h1 : k' ≠ k := h (k', v) (List.mem_cons_self _ _)
    simp only [level?, if_neg h1]
    exact ih fun e he => h e (List.mem_cons_of_mem _ he)

theorem level?_addAt_ne {α : Type} [DecidableEq α] (comp : α → α → Bool) (hc : StrictOrd comp)
    (k : α) (q : Int) (l : Levels α) (p : α) (hp : p ≠ k) :
    level? p (addAt comp k q l) = level? p l := by
  induction l with
  | nil => simp [addAt, level?, Ne.symm hp]
  | cons x rest ih =>
    obtain ⟨k', v⟩ := x
    simp only [addAt]
    split
    · simp [level?, Ne.symm hp]
    · split
      · simp only [level?, ih]
      · rename_i h1 h2
        have hk : k = k' := hc.total k k' (by simpa using h1) (by simpa using h2)
        have : k' ≠ p := by rw [← hk]; exact Ne.symm hp
        simp [level?, this]

theorem level?_addAt_self {α : Type} [DecidableEq α] (comp : α → α → Bool) (hc : StrictOrd comp)
    (k : α) (q : Int) (l : Levels α) (hl : Sorted comp l) :
    level? k (addAt comp k q l) = some (wrapInt (quantityAt k l + q)) := by
  induction l with
  | nil => simp [addAt, level?, quantityAt]
  | cons x rest ih =>
    obtain ⟨k', v⟩ := x
    have hl' := List.pairwise_cons.1 hl
    simp only [addAt]
    split
    · rename_i h1
      have hne : k' ≠ k := by
        intro h; rw [h, hc.irrefl] at h1; exact Bool.noConfusion h1
      have hnone : level? k rest = none := by
        apply level?_eq_none_of_not_key
        intro e he h
        have h2 := hc.trans _ _ _ h1 (hl'.1 e he)
        rw [h, hc.irrefl] at h2; exact Bool.noConfusion h2
      simp [level?, quantityAt, hne, hnone]
    · split
      · rename_i h1 h2
        have hne : k' ≠ k := by
          intro h; rw [h, hc.irrefl] at h2; exact Bool.noConfusion h2
        simp only [level?, if_neg hne, quantityAt]
        simpa [quantityAt] using ih hl'.2
      · rename_i h1 h2
        have hk : k = k' := hc.total k k' (by simpa using h1) (by simpa using h2)
        simp [level?, quantityAt, hk]

/-! ### One call of the matching function in closed form -/

theorem dropWhile_eq_filter {α : Type} (comp : α → α → Bool) (p : α → Bool)
    (hp : ∀ a b, comp a b = true → p b = true → p a = true)
    (l : Levels α) (hl : Sorted comp l) :
    l.dropWhile (fun e => p e.1) = l.filter (fun e => !p e.1) := by
  induction l with
  | nil => rfl
  | cons x rest ih =>
    obtain ⟨k, v⟩ := x
    have hl' := List.pairwise_cons.1 hl
    by_cases hk : p k = true
    · simp [List.dropWhile, List.filter, hk, ih hl'.2]
    · have hk' : p k = false := by simpa using hk
      have hrest : rest.filter (fun e => !p e.1) = rest := by
        apply List.filter_eq_self.2
        intro e he
        have : p e.1 = false := by
          cases hpe : p e.1 with
          | false => rfl
          | true => exact absurd (hp k e.1 (hl'.1 e he) hpe) hk
        simp [this]
      simp [List.dropWhile, List.filter, hk', hrest]

theorem process_order_buy {α : Type} [LinearOrder α] (book : Book α) (order : Order α)
    (hs : order.side = "buy") (hq : 0 < order.quantity) :
    process_order book order =
      ⟨addAt greater order.price order.quantity book.buy_book,
        book.sell_book.dropWhile (fun e => decide (order.price ≥ e.1))⟩ := by
  simp only [process_order, if_pos hs, gt_iff_lt, if_pos hq]
  rw [matchLoop_pos _ _ hq]

theorem process_order_sell {α : Type} [LinearOrder α] (book : Book α) (order : Order α)
    (hs : order.side = "sell") (hq : 0 < order.quantity) :
    process_order book order =
      ⟨book.buy_book.dropWhile (fun e => decide (order.price ≤ e.1)),
        addAt less order.price order.quantity book.sell_book⟩ := by
  have hb : order.side ≠ "buy" := by rw [hs]; decide
  simp only [process_order, if_neg hb, if_pos hs, gt_iff_lt, if_pos hq]
  rw [matchLoop_pos _ _ hq]

/-- An order whose quantity is not positive, or whose side is neither `"buy"` nor
`"sell"`, leaves both maps as they are. -/
theorem process_order_noop {α : Type} [LinearOrder α] (book : Book α) (order : Order α)
    (h : order.quantity ≤ 0 ∨ (order.side ≠ "buy" ∧ order.side ≠ "sell")) :
    process_order book order = book := by
  rcases h with hq | ⟨h1, h2⟩
  · have hq' : ¬ (0 < order.quantity) := by omega
    simp only [process_order, gt_iff_lt, if_neg hq', matchLoop_nonpos _ _ _ hq]
    split
    · rfl
    · split <;> rfl
  · simp only [process_order, if_neg h1, if_neg h2]

theorem sell_filter {α : Type} [LinearOrder α] (price : α) (l : Levels α)
    (hl : Sorted less l) :
    l.dropWhile (fun e => decide (price ≥ e.1)) = l.filter (fun e => decide (e.1 > price)) := by
  rw [dropWhile_eq_filter less (fun k => decide (price ≥ k)) _ l hl]
  · congr 1
    funext e
    by_cases h : e.1 > price
    · have : ¬ price ≥ e.1 := not_le.2 h
      simp [h, this]
    · have : price ≥ e.1 := not_lt.1 h
      simp [h, this]
  · intro a b hab hb
    simp only [less, decide_eq_true_eq, ge_iff_le] at hab hb ⊢
    exact le_trans (le_of_lt hab) hb

theorem buy_filter {α : Type} [LinearOrder α] (price : α) (l : Levels α)
    (hl : Sorted greater l) :
    l.dropWhile (fun e => decide (price ≤ e.1)) = l.filter (fun e => decide (e.1 < price)) := by
  rw [dropWhile_eq_filter greater (fun k => decide (price ≤ k)) _ l hl]
  · congr 1
    funext e
    by_cases h : e.1 < price
    · have : ¬ price ≤ e.1 := not_le.2 h
      simp [h, this]
    · have : price ≤ e.1 := not_lt.1 h
      simp [h, this]
  · intro a b hab hb
    simp only [greater, decide_eq_true_eq, gt_iff_lt] at hab hb ⊢
    exact le_trans hb (le_of_lt hab)

theorem sorted_filter {α : Type} (comp : α → α → Bool) (p : α × Int → Bool) (l : Levels α)
    (hl : Sorted comp l) : Sorted comp (l.filter p) :=
  List.Pairwise.sublist (List.filter_sublist l) hl

theorem positive_dropWhile {α : Type} (p : α × Int → Bool) (l : Levels α)
    (hl : Positive l) : Positive (l.dropWhile p) :=
  fun e he => hl e ((List.dropWhile_sublist p).subset he)

/-! ### Invariants of the book -/

theorem process_order_wf {α : Type} [LinearOrder α] (book : Book α) (order : Order α)
    (hwf : book.WF) : (process_order book order).WF := by
  by_cases hq : 0 < order.quantity
  · by_cases hb : order.side = "buy"
    · rw [process_order_buy book order hb hq, sell_filter _ _ hwf.2]
      exact ⟨addAt_sorted greater greater_strictOrd _ _ _ hwf.1, sorted_filter _ _ _ hwf.2⟩
    · by_cases hs : order.side = "sell"
      · rw [process_order_sell book order hs hq, buy_filter _ _ hwf.1]
        exact ⟨sorted_filter _ _ _ hwf.1, addAt_sorted less less_strictOrd _ _ _ hwf.2⟩
      · rw [process_order_noop book order (Or.inr ⟨hb, hs⟩)]; exact hwf
  · rw [process_order_noop book order (Or.inl (by omega))]; exact hwf

theorem process_order_uncrossed {α : Type} [LinearOrder α] (book : Book α) (order : Order α)
    (hwf : book.WF) (hu : Uncrossed book) : Uncrossed (process_order book order) := by
  by_cases hq : 0 < order.quantity
  · by_cases hb : order.side = "buy"
    · rw [process_order_buy book order hb hq, sell_filter _ _ hwf.2]
      intro x hx y hy
      obtain ⟨hy1, hy2⟩ := List.mem_filter.1 hy
      have hy3 : order.price < y.1 := by simpa using hy2
      rcases addAt_keys greater _ _ _ x hx with h | ⟨e, he, hk⟩
      · rw [h]; exact hy3
      · rw [← hk]; exact hu e he y hy1
    · by_cases hs : order.side = "sell"
      · rw [process_order_sell book order hs hq, buy_filter _ _ hwf.1]
        intro x hx y hy
        obtain ⟨hx1, hx2⟩ := List.mem_filter.1 hx
        have hx3 : x.1 < order.price := by simpa using hx2
        rcases addAt_keys less _ _ _ y hy with h | ⟨e, he, hk⟩
        · rw [h]; exact hx3
        · rw [← hk]; exact hu x hx1 e he
      · rw [process_order_noop book order (Or.inr ⟨hb, hs⟩)]; exact hu
  · rw [process_order_noop book order (Or.inl (by omega))]; exact hu

theorem process_order_positive {α : Type} [LinearOrder α] (book : Book α) (order : Order α)
    (hp : Positive book.buy_book ∧ Positive book.sell_book)
    (hfit : aggregateFits book order = true) :
    Positive (process_order book order).buy_book ∧
      Positive (process_order book order).sell_book := by
  by_cases hq : 0 < order.quantity
  · by_cases hb : order.side = "buy"
    · rw [process_order_buy book order hb hq]
      have hf : inIntRange (quantityAt order.price book.buy_book + order.quantity) = true := by
        simpa [aggregateFits, hb, hq] using hfit
      exact ⟨addAt_positive _ greater_strictOrd _ _ hq _ hp.1 hf,
        positive_dropWhile _ _ hp.2⟩
    · by_cases hs : order.side = "sell"
      · rw [process_order_sell book order hs hq]
        have hf : inIntRange (quantityAt order.price book.sell_book + order.quantity)
            = true := by
          simpa [aggregateFits, hb, hs, hq] using hfit
        exact ⟨positive_dropWhile _ _ hp.1,
          addAt_positive _ less_strictOrd _ _ hq _ hp.2 hf⟩
      · rw [process_order_noop book order (Or.inr ⟨hb, hs⟩)]; exact hp
  · rw [process_order_noop book order (Or.inl (by omega))]; exact hp

theorem applyAll_inv {α : Type} [LinearOrder α] (orders : List (Order α)) (book : Book α)
    (hwf : book.WF) (hu : Uncrossed book) :
    (applyAll book orders).WF ∧ Uncrossed (applyAll book orders) := by
  induction orders generalizing book with
  | nil => exact ⟨hwf, hu⟩
  | cons o rest ih =>
    exact ih (process_order book o) (process_order_wf book o hwf)
      (process_order_uncrossed book o hwf hu)

theorem applyAll_positive {α : Type} [LinearOrder α] (orders : List (Order α)) (book : Book α)
    (hp : Positive book.buy_book ∧ Positive book.sell_book)
    (hfit : noOverflow book orders = true) :
    Positive (applyAll book orders).buy_book ∧ Positive (applyAll book orders).sell_book := by
  induction orders generalizing book with
  | nil => exact hp
  | cons o rest ih =>
    simp only [noOverflow, Bool.and_eq_true] at hfit
    exact ih (process_order book o) (process_order_positive book o hp hfit.1) hfit.2

theorem sorted_head_le {α : Type} [LinearOrder α] (l : Levels α) (hl : Sorted less l)
    (e : α × Int) (he : l.head? = some e) : ∀ y ∈ l, e.1 ≤ y.1 := by
  cases l with
  | nil => simp at he
  | cons x rest =>
    have hx : x = e := by simpa using he
    subst hx
    intro y hy
    rcases List.mem_cons.1 hy with h | h
    · rw [h]
    · have := (List.pairwise_cons.1 hl).1 y h
      simp only [less, decide_eq_true_eq] at this
      exact le_of_lt this

theorem sorted_head_ge {α : Type} [LinearOrder α] (l : Levels α) (hl : Sorted greater l)
    (e : α × Int) (he : l.head? = some e) : ∀ y ∈ l, y.1 ≤ e.1 := by
  cases l with
  | nil => simp at he
  | cons x rest =>
    have hx : x = e := by simpa using he
    subst hx
    intro y hy
    rcases List.mem_cons.1 hy with h | h
    · rw [h]
    · have := (List.pairwise_cons.1 hl).1 y h
      simp only [greater, decide_eq_true_eq, gt_iff_lt] at this
      exact le_of_lt this

/-- C1, no residual crossed book: after any finite sequence of orders (any side string,
any price, any integer quantity) applied with `process_order` from the empty book,
whenever `buy_book` and `sell_book` are both non-empty, the first entry of `buy_book`
carries the highest bid price, the first entry of `sell_book` the lowest ask price, and
the highest bid price is strictly less than the lowest ask price. -/
theorem no_residual_crossed_book {α : Type} [LinearOrder α] (orders : List (Order α))
    (bid ask : α × Int)
    (hbid : (applyAll Book.empty orders).buy_book.head? = some bid)
    (hask : (applyAll Book.empty orders).sell_book.head? = some ask) :
    (∀ x ∈ (applyAll Book.empty orders).buy_book, x.1 ≤ bid.1) ∧
      (∀ y ∈ (applyAll Book.empty orders).sell_book, ask.1 ≤ y.1) ∧
      bid.1 < ask.1 := by
  have hinv := applyAll_inv orders (Book.empty : Book α)
    ⟨List.Pairwise.nil, List.Pairwise.nil⟩ (fun x hx => by simp [Book.empty] at hx)
  refine ⟨sorted_head_ge _ hinv.1.1 bid hbid, sorted_head_le _ hinv.1.2 ask hask, ?_⟩
  exact hinv.2 bid (List.mem_of_mem_head? hbid) ask (List.mem_of_mem_head? hask)

theorem no_residual_crossed_book_witness :
    (applyAll (Book.empty : Book Int) [⟨"buy", 99, 5⟩, ⟨"sell", 100, 5⟩]).buy_book.head?
        = some (99, 5) ∧
      (applyAll (Book.empty : Book Int) [⟨"buy", 99, 5⟩, ⟨"sell", 100, 5⟩]).sell_book.head?
        = some (100, 5) ∧
      (99 : Int) < 100 :=
  have h1 : (applyAll (Book.empty : Book Int)
      [⟨"buy", 99, 5⟩, ⟨"sell", 100, 5⟩]).buy_book.head? = some (99, 5) := by
    simp [applyAll, Book.empty, process_order, matchLoop, loopGuard, loopBody, addAt, wrapInt]
  have h2 : (applyAll (Book.empty : Book Int)
      [⟨"buy", 99, 5⟩, ⟨"sell", 100, 5⟩]).sell_book.head? = some (100, 5) := by
    simp [applyAll, Book.empty, process_order, matchLoop, loopGuard, loopBody, addAt, wrapInt]
  ⟨h1, h2, (no_residual_crossed_book _ (99, 5) (100, 5) h1 h2).2.2⟩

/-- C5, no zero or negative level persists: after any finite sequence of orders (any side
string, any price, any integer quantity, zero and negative ones included) applied with
`process_order` from the empty book, every level stored in `buy_book` and in `sell_book`
has a quantity strictly greater than 0, provided no aggregated level quantity leaves the
`int` range during the run. -/
theorem no_nonpositive_level {α : Type} [LinearOrder α] (orders : List (Order α))
    (hfit : noOverflow Book.empty orders = true) :
    (∀ e ∈ (applyAll Book.empty orders).buy_book, 0 < e.2) ∧
      (∀ e ∈ (applyAll Book.empty orders).sell_book, 0 < e.2) :=
  applyAll_positive orders (Book.empty : Book α)
    ⟨fun e he => by simp [Book.empty] at he, fun e he => by simp [Book.empty] at he⟩ hfit

theorem no_nonpositive_level_witness :
    (∀ e ∈ (applyAll (Book.empty : Book Int)
        [⟨"sell", 101, 10⟩, ⟨"buy", 101, 4⟩, ⟨"buy", 99, 0⟩, ⟨"sell", 98, -3⟩,
          ⟨"hold", 97, 1⟩]).buy_book, 0 < e.2) ∧
      (∀ e ∈ (applyAll (Book.empty : Book Int)
        [⟨"sell", 101, 10⟩, ⟨"buy", 101, 4⟩, ⟨"buy", 99, 0⟩, ⟨"sell", 98, -3⟩,
          ⟨"hold", 97, 1⟩]).sell_book, 0 < e.2) :=
  no_nonpositive_level
    [⟨"sell", 101, 10⟩, ⟨"buy", 101, 4⟩, ⟨"buy", 99, 0⟩, ⟨"sell", 98, -3⟩, ⟨"hold", 97, 1⟩]
    (by simp [noOverflow, aggregateFits, inIntRange, INT_MIN, INT_MAX, quantityAt, level?,
      Book.empty, process_order, matchLoop, loopGuard, loopBody, addAt, wrapInt])

theorem level?_addAt_self_exact {α : Type} [DecidableEq α] (comp : α → α → Bool)
    (hc : StrictOrd comp) (k : α) (q : Int) (l : Levels α) (hl : Sorted comp l)
    (hfit : inIntRange (quantityAt k l + q) = true) :
    level? k (addAt comp k q l) = some (quantityAt k l + q) := by
  rw [level?_addAt_self comp hc k q l hl, wrapInt_of_inIntRange _ hfit]

theorem dropWhile_of_head_false {α : Type} (p : α × Int → Bool) (l : Levels α)
    (h : ∀ e, l.head? = some e → p e = false) : l.dropWhile p = l := by
  cases l with
  | nil => rfl
  | cons x rest => simp [List.dropWhile, h x rfl]

/-- C10 as stated fails when the aggregate leaves the `int` range: on the book with bid
`(100, 3)` and ask `(101, 2147483647)`, a well-formed book with positive levels, the
order `sell 101 x 1` has a positive quantity, and the `sell_book` quantity at 101 becomes
`-2147483648` and not the old quantity increased by 1. -/
theorem process_order_closed_form_overflow :
    Book.WF (⟨[(100, 3)], [(101, 2147483647)]⟩ : Book Int) ∧
    Positive (⟨[(100, 3)], [(101, 2147483647)]⟩ : Book Int).buy_book ∧
    Positive (⟨[(100, 3)], [(101, 2147483647)]⟩ : Book Int).sell_book ∧
    0 < (⟨"sell", 101, 1⟩ : Order Int).quantity ∧
    level? 101 (process_order (⟨[(100, 3)], [(101, 2147483647)]⟩ : Book Int)
        ⟨"sell", 101, 1⟩).sell_book = some (-2147483648) ∧
    level? 101 (process_order (⟨[(100, 3)], [(101, 2147483647)]⟩ : Book Int)
        ⟨"sell", 101, 1⟩).sell_book
      ≠ some (quantityAt 101 (⟨[(100, 3)], [(101, 2147483647)]⟩ : Book Int).sell_book
          + (⟨"sell", 101, 1⟩ : Order Int).quantity) := by
  have h : process_order (⟨[(100, 3)], [(101, 2147483647)]⟩ : Book Int) ⟨"sell", 101, 1⟩
      = ⟨[(100, 3)], [(101, -2147483648)]⟩ := by
    rw [process_order_sell _ _ rfl (by decide)]
    decide
  rw [h]
  refine ⟨⟨by simp [Sorted], by simp [Sorted]⟩, ?_, ?_, by decide, by decide, by decide⟩
  · intro e he
    have : e = (100, 3) := by simpa using he
    rw [this]; decide
  · intro e he
    have : e = (101, 2147483647) := by simpa using he
    rw [this]; decide

/-- C10 amended, closed form of `process_order`: for every well-formed book (with
strictly positive levels or not) and every buy order `(P, Q)` with `Q > 0`, the
resulting `sell_book` is the old one with every level of price `<= P` removed and every
level of price `> P` unchanged, every `buy_book` level at a price other than `P` is
unchanged, and, provided the old quantity at `P` (0 when the level is absent) plus `Q`
lies in the `int` range, the resulting `buy_book` quantity at `P` is the old one
increased by the full `Q`, whatever the resting quantities are; symmetrically a sell
order `(P, Q)` removes every `buy_book` level of price `>= P` and adds the full `Q` to
`sell_book` at `P`. -/
theorem process_order_closed_form {α : Type} [LinearOrder α] (book : Book α)
    (order : Order α) (hwf : book.WF) (hq : 0 < order.quantity) :
    (order.side = "buy" →
      (process_order book order).sell_book
          = book.sell_book.filter (fun e => decide (e.1 > order.price)) ∧
        (inIntRange (quantityAt order.price book.buy_book + order.quantity) = true →
          level? order.price (process_order book order).buy_book
            = some (quantityAt order.price book.buy_book + order.quantity)) ∧
        (∀ p, p ≠ order.price →
          level? p (process_order book order).buy_book = level? p book.buy_book) ∧
        (process_order book order).WF) ∧
    (order.side = "sell" →
      (process_order book order).buy_book
          = book.buy_book.filter (fun e => decide (e.1 < order.price)) ∧
        (inIntRange (quantityAt order.price book.sell_book + order.quantity) = true →
          level? order.price (process_order book order).sell_book
            = some (quantityAt order.price book.sell_book + order.quantity)) ∧
        (∀ p, p ≠ order.price →
          level? p (process_order book order).sell_book = level? p book.sell_book) ∧
        (process_order book order).WF) := by
  refine ⟨fun hs => ?_, fun hs => ?_⟩
  · refine ⟨?_, ?_, ?_, process_order_wf book order hwf⟩
    · rw [process_order_buy book order hs hq, sell_filter _ _ hwf.2]
    · intro hfit
      rw [process_order_buy book order hs hq]
      exact level?_addAt_self_exact greater greater_strictOrd _ _ _ hwf.1 hfit
    · intro p hp
      rw [process_order_buy book order hs hq]
      exact level?_addAt_ne greater greater_strictOrd _ _ _ p hp
  · refine ⟨?_, ?_, ?_, process_order_wf book order hwf⟩
    · rw [process_order_sell book order hs hq, buy_filter _ _ hwf.1]
    · intro hfit
      rw [process_order_sell book order hs hq]
      exact level?_addAt_self_exact less less_strictOrd _ _ _ hwf.2 hfit
    · intro p hp
      rw [process_order_sell book order hs hq]
      exact level?_addAt_ne less less_strictOrd _ _ _ p hp

theorem process_order_closed_form_witness :
    (process_order (⟨[(99, 2)], [(100, 7), (101, 1), (103, 4)]⟩ : Book Int)
        ⟨"buy", 101, 3⟩).sell_book
      = [(103, 4)] ∧
    level? 101 (process_order (⟨[(99, 2)], [(100, 7), (101, 1), (103, 4)]⟩ : Book Int)
        ⟨"buy", 101, 3⟩).buy_book
      = some 3 :=
  have h := (process_order_closed_form
    (⟨[(99, 2)], [(100, 7), (101, 1), (103, 4)]⟩ : Book Int) ⟨"buy", 101, 3⟩
    ⟨by simp [Sorted, greater], by simp [Sorted, less]⟩ (by decide)).1 rfl
  ⟨h.1.trans (by decide), (h.2.1 (by decide)).trans (by decide)⟩

/-- C4 as stated fails when the aggregate leaves the `int` range: on the well-formed
book with the single bid `(100, 2147483647)` and no ask, the order `buy 100 x 1` has a
positive quantity and is not marketable, and the `buy_book` quantity at 100 becomes
`-2147483648` and not the previous quantity plus 1. -/
theorem non_marketable_rests_overflow :
    Book.WF (⟨[(100, 2147483647)], []⟩ : Book Int) ∧
    0 < (⟨"buy", 100, 1⟩ : Order Int).quantity ∧
    (⟨[(100, 2147483647)], []⟩ : Book Int).sell_book = [] ∧
    level? 100 (process_order (⟨[(100, 2147483647)], []⟩ : Book Int)
        ⟨"buy", 100, 1⟩).buy_book = some (-2147483648) ∧
    level? 100 (process_order (⟨[(100, 2147483647)], []⟩ : Book Int)
        ⟨"buy", 100, 1⟩).buy_book
      ≠ some (quantityAt 100 (⟨[(100, 2147483647)], []⟩ : Book Int).buy_book
          + (⟨"buy", 100, 1⟩ : Order Int).quantity) := by
  have h : process_order (⟨[(100, 2147483647)], []⟩ : Book Int) ⟨"buy", 100, 1⟩
      = ⟨[(100, -2147483648)], []⟩ := by
    rw [process_order_buy _ _ rfl (by decide)]
    decide
  rw [h]
  exact ⟨⟨by simp [Sorted], by simp [Sorted]⟩, by decide, rfl, by decide, by decide⟩

/-- C4 amended, a non-marketable order rests and aggregates: for every well-formed book
and every buy order `(P, Q)` with `Q > 0` such that `sell_book` is empty or `P` is
strictly below its first (lowest) price, `process_order` leaves `sell_book` unchanged,
leaves every `buy_book` level at a price other than `P` unchanged and, provided the
previous quantity at `P` (0 when the level was absent) plus `Q` lies in the `int` range,
makes the `buy_book` quantity at `P` that sum; symmetrically for a sell order when
`buy_book` is empty or `P` is strictly above its first (highest) price.  On the empty
book `sell 101 x 10` gives ask `(101, 10)` and no bid, and `buy 99 x 5` followed by
`sell 100 x 5` gives bid `(99, 5)` and ask `(100, 5)`. -/
theorem non_marketable_rests {α : Type} [LinearOrder α] (book : Book α) (order : Order α)
    (hwf : book.WF) (hq : 0 < order.quantity) :
    (order.side = "buy" →
      (∀ e, book.sell_book.head? = some e → order.price < e.1) →
      (process_order book order).sell_book = book.sell_book ∧
        (∀ p, p ≠ order.price →
          level? p (process_order book order).buy_book = level? p book.buy_book) ∧
        (inIntRange (quantityAt order.price book.buy_book + order.quantity) = true →
          level? order.price (process_order book order).buy_book
            = some (quantityAt order.price book.buy_book + order.quantity))) ∧
    (order.side = "sell" →
      (∀ e, book.buy_book.head? = some e → e.1 < order.price) →
      (process_order book order).buy_book = book.buy_book ∧
        (∀ p, p ≠ order.price →
          level? p (process_order book order).sell_book = level? p book.sell_book) ∧
        (inIntRange (quantityAt order.price book.sell_book + order.quantity) = true →
          level? order.price (process_order book order).sell_book
            = some (quantityAt order.price book.sell_book + order.quantity))) ∧
    process_order (Book.empty : Book Int) ⟨"sell", 101, 10⟩ = ⟨[], [(101, 10)]⟩ ∧
    applyAll (Book.empty : Book Int) [⟨"buy", 99, 5⟩, ⟨"sell", 100, 5⟩]
      = ⟨[(99, 5)], [(100, 5)]⟩ := by
  refine ⟨fun hs hm => ?_, fun hs hm => ?_, ?_, ?_⟩
  · rw [process_order_buy book order hs hq]
    refine ⟨?_, fun p hp => level?_addAt_ne greater greater_strictOrd _ _ _ p hp,
      fun hfit => level?_addAt_self_exact greater greater_strictOrd _ _ _ hwf.1 hfit⟩
    apply dropWhile_of_head_false
    intro e he
    have : ¬ order.price ≥ e.1 := not_le.2 (hm e he)
    simp [this]
  · rw [process_order_sell book order hs hq]
    refine ⟨?_, fun p hp => level?_addAt_ne less less_strictOrd _ _ _ p hp,
      fun hfit => level?_addAt_self_exact less less_strictOrd _ _ _ hwf.2 hfit⟩
    apply dropWhile_of_head_false
    intro e he
    have : ¬ order.price ≤ e.1 := not_le.2 (hm e he)
    simp [this]
  · simp [Book.empty, process_order, matchLoop, loopGuard, loopBody, addAt, wrapInt]
  · simp [applyAll, Book.empty, process_order, matchLoop, loopGuard, loopBody, addAt, wrapInt]

theorem non_marketable_rests_witness :
    (process_order (⟨[(99, 5), (98, 1)], [(100, 5)]⟩ : Book Int) ⟨"buy", 99, 2⟩).sell_book
      = [(100, 5)] ∧
    level? 98 (process_order (⟨[(99, 5), (98, 1)], [(100, 5)]⟩ : Book Int)
      ⟨"buy", 99, 2⟩).buy_book = some 1 ∧
    level? 99 (process_order (⟨[(99, 5), (98, 1)], [(100, 5)]⟩ : Book Int)
      ⟨"buy", 99, 2⟩).buy_book = some 7 :=
  have h := (non_marketable_rests
    (⟨[(99, 5), (98, 1)], [(100, 5)]⟩ : Book Int) ⟨"buy", 99, 2⟩
    ⟨by simp [Sorted, greater], by simp [Sorted, less]⟩ (by decide)).1 rfl
    (by intro e he; simp at he; rw [← he]; decide)
  ⟨h.1, (h.2.1 98 (by decide)).trans (by decide), (h.2.2 (by decide)).trans (by decide)⟩

theorem loopBody_positive {α : Type} (quantity : Int) (book : Levels α)
    (hp : Positive book) : Positive (loopBody quantity book) := by
  cases book with
  | nil => exact hp
  | cons x rest =>
    obtain ⟨k, v⟩ := x
    have hv : 0 < v := hp (k, v) (List.mem_cons_self _ _)
    have hrest : Positive rest := fun e he => hp e (List.mem_cons_of_mem _ he)
    simp only [loopBody]
    split
    · exact hrest
    · rename_i hne
      intro e he
      rcases List.mem_cons.1 he with h | h
      · rw [h]
        show 0 < v - min quantity v
        rcases le_total quantity v with hle | hle
        · rw [min_eq_left hle] at hne ⊢; omega
        · rw [min_eq_right hle] at hne; simp at hne
      · exact hrest e h

theorem loopBody_totalQty {α : Type} (crosses : α → Bool) (quantity : Int) (book : Levels α)
    (hp : Positive book) (hg : loopGuard crosses quantity book = true) :
    totalQty (loopBody quantity book) < totalQty book := by
  cases book with
  | nil => simp [loopGuard] at hg
  | cons x rest =>
    obtain ⟨k, v⟩ := x
    have hv : 0 < v := hp (k, v) (List.mem_cons_self _ _)
    simp only [loopGuard, Bool.and_eq_true, decide_eq_true_eq] at hg
    have hq : 0 < quantity := hg.2
    have hm : 0 < min quantity v := lt_min hq hv
    simp only [loopBody]
    split
    · simp only [totalQty, List.map_cons, List.sum_cons]; omega
    · simp only [totalQty, List.map_cons, List.sum_cons]; omega

theorem iterate_loopBody_positive {α : Type} (quantity : Int)
    (book : Levels α) (hp : Positive book) (i : Nat) :
    Positive ((loopBody quantity)^[i] book) := by
  induction i with
  | zero => exact hp
  | succ n ih =>
    rw [Function.iterate_succ_apply']
    exact loopBody_positive quantity _ ih

/-- The matching loop on a side whose levels are all positive stops after finitely many
iterations, each of which strictly decreases the total quantity resting on that side. -/
theorem matchLoop_terminates {α : Type} (crosses : α → Bool) (quantity : Int)
    (book : Levels α) (hp : Positive book) :
    ∃ n, n ≤ loopMeasure book ∧
      (∀ i, i < n →
        loopGuard crosses quantity ((loopBody quantity)^[i] book) = true ∧
        totalQty ((loopBody quantity)^[i + 1] book)
          < totalQty ((loopBody quantity)^[i] book)) ∧
      loopGuard crosses quantity ((loopBody quantity)^[n] book) = false ∧
      matchLoop crosses quantity book = (loopBody quantity)^[n] book := by
  obtain ⟨n, hle, hall, hstop, heq⟩ := matchLoop_iterate crosses quantity book
  refine ⟨n, hle, fun i hi => ⟨hall i hi, ?_⟩, hstop, heq⟩
  rw [Function.iterate_succ_apply']
  exact loopBody_totalQty crosses quantity _
    (iterate_loopBody_positive quantity book hp i) (hall i hi)

theorem process_order_buy_sell_book {α : Type} [LinearOrder α] (book : Book α)
    (order : Order α) (hs : order.side = "buy") :
    (process_order book order).sell_book
      = matchLoop (fun k => decide (order.price ≥ k)) order.quantity book.sell_book := by
  simp only [process_order, if_pos hs]
  split <;> rfl

theorem process_order_sell_buy_book {α : Type} [LinearOrder α] (book : Book α)
    (order : Order α) (hs : order.side = "sell") :
    (process_order book order).buy_book
      = matchLoop (fun k => decide (order.price ≤ k)) order.quantity book.buy_book := by
  have hb : order.side ≠ "buy" := by rw [hs]; decide
  simp only [process_order, if_neg hb, if_pos hs]
  split <;> rfl

/-- C9, termination of matching: for every book in which every level quantity is
strictly positive and for every order, the matching loop of `process_order` runs
finitely many iterations (at most `loopMeasure` of the opposite side), although
`order.quantity` is never decremented; every iteration strictly decreases the total
quantity resting on the opposite side, and the opposite side of the resulting book is
the state in which the loop stopped.  An order that is neither a buy nor a sell runs no
loop at all. -/
theorem process_order_terminates {α : Type} [LinearOrder α] (book : Book α)
    (order : Order α) (hp : Positive book.buy_book ∧ Positive book.sell_book) :
    (order.side = "buy" →
      ∃ n, n ≤ loopMeasure book.sell_book ∧
        (∀ i, i < n →
          loopGuard (fun k => decide (order.price ≥ k)) order.quantity
            ((loopBody order.quantity)^[i] book.sell_book) = true ∧
          totalQty ((loopBody order.quantity)^[i + 1] book.sell_book)
            < totalQty ((loopBody order.quantity)^[i] book.sell_book)) ∧
        loopGuard (fun k => decide (order.price ≥ k)) order.quantity
          ((loopBody order.quantity)^[n] book.sell_book) = false ∧
        (process_order book order).sell_book
          = (loopBody order.quantity)^[n] book.sell_book) ∧
    (order.side = "sell" →
      ∃ n, n ≤ loopMeasure book.buy_book ∧
        (∀ i, i < n →
          loopGuard (fun k => decide (order.price ≤ k)) order.quantity
            ((loopBody order.quantity)^[i] book.buy_book) = true ∧
          totalQty ((loopBody order.quantity)^[i + 1] book.buy_book)
            < totalQty ((loopBody order.quantity)^[i] book.buy_book)) ∧
        loopGuard (fun k => decide (order.price ≤ k)) order.quantity
          ((loopBody order.quantity)^[n] book.buy_book) = false ∧
        (process_order book order).buy_book
          = (loopBody order.quantity)^[n] book.buy_book) ∧
    (order.side ≠ "buy" → order.side ≠ "sell" → process_order book order = book) := by
  refine ⟨fun hs => ?_, fun hs => ?_, fun h1 h2 => process_order_noop book order (Or.inr ⟨h1, h2⟩)⟩
  · rw [process_order_buy_sell_book book order hs]
    exact matchLoop_terminates _ _ _ hp.2
  · rw [process_order_sell_buy_book book order hs]
    exact matchLoop_terminates _ _ _ hp.1

theorem process_order_terminates_witness :
    ∃ n, n ≤ 8 ∧
      (process_order (⟨[], [(100, 7)]⟩ : Book Int) ⟨"buy", 100, 3⟩).sell_book
        = (loopBody 3)^[n] [(100, 7)] :=
  match (process_order_terminates (⟨[], [(100, 7)]⟩ : Book Int) ⟨"buy", 100, 3⟩
    ⟨fun e he => by simp at he, fun e he => by
      have : e = (100, 7) := by simpa using he
      rw [this]; decide⟩).1 rfl with
  | ⟨n, hle, _, _, heq⟩ => ⟨n, hle, heq⟩

/-- C2, conservation, is broken by `process_order`: on the book with the single ask
`(100, 7)` the order `buy 100 x 3` removes 7 from `sell_book` and still rests its full
quantity 3 at price 100 on `buy_book`, so removed plus rested quantity is 10 and not the
order quantity 3. -/
theorem conservation_violated :
    (process_order (⟨[], [(100, 7)]⟩ : Book Int) ⟨"buy", 100, 3⟩) = ⟨[(100, 3)], []⟩ ∧
    (totalQty (⟨[], [(100, 7)]⟩ : Book Int).sell_book
        - totalQty (process_order (⟨[], [(100, 7)]⟩ : Book Int) ⟨"buy", 100, 3⟩).sell_book)
      + (quantityAt 100 (process_order (⟨[], [(100, 7)]⟩ : Book Int) ⟨"buy", 100, 3⟩).buy_book
        - quantityAt 100 (⟨[], [(100, 7)]⟩ : Book Int).buy_book) = 10 ∧
    (totalQty (⟨[], [(100, 7)]⟩ : Book Int).sell_book
        - totalQty (process_order (⟨[], [(100, 7)]⟩ : Book Int) ⟨"buy", 100, 3⟩).sell_book)
      + (quantityAt 100 (process_order (⟨[], [(100, 7)]⟩ : Book Int) ⟨"buy", 100, 3⟩).buy_book
        - quantityAt 100 (⟨[], [(100, 7)]⟩ : Book Int).buy_book)
      ≠ (⟨"buy", 100, 3⟩ : Order Int).quantity := by
  have h : (process_order (⟨[], [(100, 7)]⟩ : Book Int) ⟨"buy", 100, 3⟩)
      = ⟨[(100, 3)], []⟩ := by
    rw [process_order_buy _ _ rfl (by decide)]
    decide
  rw [h]
  exact ⟨rfl, by decide, by decide⟩

/-- C3, `process_order` is not the spec's matching algorithm: with the ask `(101, 10)`
resting, `buy 101 x 4` makes `process_order` erase the whole ask level and rest a bid
`(101, 4)`, where the spec's algorithm leaves the ask `(101, 6)` and rests nothing; and
on the ask `(101, 6)` the order `buy 102 x 10` makes `process_order` rest the full bid
`(102, 10)`, where the spec's algorithm rests `(102, 4)`. -/
theorem process_order_differs_from_spec :
    process_order (⟨[], [(101, 10)]⟩ : Book Int) ⟨"buy", 101, 4⟩ = ⟨[(101, 4)], []⟩ ∧
    spec_apply (⟨[], [(101, 10)]⟩ : Book Int) ⟨"buy", 101, 4⟩ = ⟨[], [(101, 6)]⟩ ∧
    process_order (⟨[], [(101, 6)]⟩ : Book Int) ⟨"buy", 102, 10⟩ = ⟨[(102, 10)], []⟩ ∧
    spec_apply (⟨[], [(101, 6)]⟩ : Book Int) ⟨"buy", 102, 10⟩ = ⟨[(102, 4)], []⟩ ∧
    process_order (⟨[], [(101, 10)]⟩ : Book Int) ⟨"buy", 101, 4⟩
      ≠ spec_apply (⟨[], [(101, 10)]⟩ : Book Int) ⟨"buy", 101, 4⟩ := by
  have h1 : process_order (⟨[], [(101, 10)]⟩ : Book Int) ⟨"buy", 101, 4⟩
      = ⟨[(101, 4)], []⟩ := by
    rw [process_order_buy _ _ rfl (by decide)]; decide
  have h2 : spec_apply (⟨[], [(101, 10)]⟩ : Book Int) ⟨"buy", 101, 4⟩
      = ⟨[], [(101, 6)]⟩ := by
    simp [spec_apply, specLoop, specGuard, specBody, specIncrease]
  refine ⟨h1, h2, ?_, ?_, ?_⟩
  · rw [process_order_buy _ _ rfl (by decide)]; decide
  · simp [spec_apply, specLoop, specGuard, specBody, specIncrease]
  · rw [h1, h2]; decide

/-! ### The single-writer engine -/

theorem submitted_append {α : Type} (xs ys : List (Event α)) :
    submitted (xs ++ ys) = submitted xs ++ submitted ys := by
  induction xs with
  | nil => rfl
  | cons e rest ih => cases e <;> simp [submitted, ih]

theorem applyAll_append {α : Type} [LinearOrder α] (book : Book α) (xs ys : List (Order α)) :
    applyAll book (xs ++ ys) = applyAll (applyAll book xs) ys := by
  simp [applyAll, List.foldl_append]

/-- What every step preserves: applied orders followed by queued orders are the
submitted orders, the maps are the result of the applied orders, and the counter counts
them. -/
theorem step_preserves {α : Type} [LinearOrder α] (s : Engine α) (e : Event α)
    (subm : List (Order α)) (b0 : Book α) (c0 : Int)
    (h1 : s.applied ++ s.order_queue = subm)
    (h2 : s.book = applyAll b0 s.applied)
    (h3 : s.processed_count = c0 + s.applied.length) :
    (step s e).applied ++ (step s e).order_queue = subm ++ submitted [e] ∧
      (step s e).book = applyAll b0 (step s e).applied ∧
      (step s e).processed_count = c0 + (step s e).applied.length := by
  cases e with
  | submit order =>
    simp only [step, submit_order, submitted, ← h1, List.append_assoc]
    exact ⟨trivial, h2, h3⟩
  | shutdown =>
    simp only [step, request_shutdown, submitted, List.append_nil]
    exact ⟨h1, h2, h3⟩
  | engine =>
    simp only [step, matching_engine_step, submitted, List.append_nil]
    split
    · split
      · split
        · exact ⟨h1, h2, h3⟩
        · exact ⟨h1, h2, h3⟩
      · rename_i next rest hq
        rw [hq] at h1
        refine ⟨by simpa using h1, ?_, ?_⟩
        · simp only [applyAll_append, ← h2]; rfl
        · simp only [h3, List.length_append, List.length_singleton]; push_cast; ring
    · exact ⟨h1, h2, h3⟩

/-- C6, FIFO application order: for every interleaving of submit steps, engine turns
and shutdown requests from the initial state, the orders applied so far followed by the
current contents of `order_queue` are the orders submitted so far, in submission order;
the maps are the result of applying exactly the applied orders in that order with
`process_order`, and `processed_count` is their number. -/
theorem fifo_application_order {α : Type} [LinearOrder α] (events : List (Event α)) :
    (runEvents Engine.init events).applied ++ (runEvents Engine.init events).order_queue
        = submitted events ∧
      (runEvents Engine.init events).book
        = applyAll Book.empty (runEvents Engine.init events).applied ∧
      (runEvents Engine.init events).processed_count
        = (runEvents Engine.init events).applied.length := by
  induction events using List.reverseRecOn with
  | nil => exact ⟨rfl, rfl, rfl⟩
  | append_singleton es e ih =>
    have h := step_preserves (runEvents Engine.init es) e (submitted es) Book.empty 0
      ih.1 ih.2.1 (by rw [ih.2.2]; simp)
    have hr : runEvents Engine.init (es ++ [e]) = step (runEvents Engine.init es) e := by
      simp [runEvents, List.foldl_append]
    rw [hr, submitted_append]
    exact ⟨h.1, h.2.1, by rw [h.2.2]; simp⟩

theorem drain_aux {α : Type} [LinearOrder α] (q : List (Order α)) (s : Engine α)
    (hq : s.order_queue = q) (hr : s.running = true) (hs : s.shutdown_engine = true) :
    (∀ k, k ≤ q.length → (matching_engine_step^[k] s).running = true) ∧
      (matching_engine_step^[q.length + 1] s).running = false ∧
      (matching_engine_step^[q.length + 1] s).order_queue = [] ∧
      (matching_engine_step^[q.length + 1] s).applied = s.applied ++ q ∧
      (matching_engine_step^[q.length + 1] s).processed_count
        = s.processed_count + q.length ∧
      (matching_engine_step^[q.length + 1] s).book = applyAll s.book q := by
  induction q generalizing s with
  | nil =>
    have h1 : matching_engine_step s = { s with running := false } := by
      simp [matching_engine_step, hr, hq, hs]
    refine ⟨?_, ?_⟩
    · intro k hk
      have : k = 0 := by simpa using hk
      subst this
      simpa using hr
    · simp only [List.length_nil, Nat.zero_add, Function.iterate_one, h1]
      simp [hq, applyAll]
  | cons next rest ih =>
    have h1 : matching_engine_step s =
        { s with
          order_queue := rest
          book := process_order s.book next
          processed_count := s.processed_count + 1
          applied := s.applied ++ [next] } := by
      simp [matching_engine_step, hr, hq]
    obtain ⟨ih1, ih2, ih3, ih4, ih5, ih6⟩ := ih (matching_engine_step s)
      (by rw [h1]) (by rw [h1]; exact hr) (by rw [h1]; exact hs)
    refine ⟨?_, ?_⟩
    · intro k hk
      cases k with
      | zero => simpa using hr
      | succ k' =>
        rw [Function.iterate_succ_apply]
        exact ih1 k' (by simpa using hk)
    · simp only [List.length_cons, Function.iterate_succ_apply] at ih2 ih3 ih4 ih5 ih6 ⊢
      refine ⟨ih2, ih3, ?_, ?_, ?_⟩
      · rw [ih4, h1]; simp
      · rw [ih5, h1]; push_cast; ring
      · rw [ih6, h1]; rfl

/-- C7, drain on shutdown: a turn of the `matching_engine` loop leaves the loop only
from a state in which `shutdown_engine` is set and `order_queue` is empty, so never
while an order is queued.  If shutdown is requested while `N` orders are queued and no
further order is submitted, the engine is still running after each of its next `N`
turns and leaves the loop in turn `N + 1`; at that point the queue is empty, exactly the
`N` queued orders have been passed to `process_order`, once each and in queue order, and
`processed_count` has grown by exactly `N`. -/
theorem drain_on_shutdown {α : Type} [LinearOrder α] (s : Engine α)
    (hr : s.running = true) :
    ((matching_engine_step s).running = false →
      s.shutdown_engine = true ∧ s.order_queue = []) ∧
    (∀ k, k ≤ s.order_queue.length →
      (matching_engine_step^[k] (request_shutdown s)).running = true) ∧
    (matching_engine_step^[s.order_queue.length + 1] (request_shutdown s)).running = false ∧
    (matching_engine_step^[s.order_queue.length + 1] (request_shutdown s)).order_queue = [] ∧
    (matching_engine_step^[s.order_queue.length + 1] (request_shutdown s)).applied
      = s.applied ++ s.order_queue ∧
    (matching_engine_step^[s.order_queue.length + 1] (request_shutdown s)).processed_count
      = s.processed_count + s.order_queue.length ∧
    (matching_engine_step^[s.order_queue.length + 1] (request_shutdown s)).book
      = applyAll s.book s.order_queue := by
  refine ⟨?_, drain_aux s.order_queue (request_shutdown s) rfl hr rfl⟩
  intro hstop
  cases hq : s.order_queue with
  | nil =>
    cases hs : s.shutdown_engine with
    | true => exact ⟨rfl, rfl⟩
    | false =>
      simp [matching_engine_step, hr, hq, hs] at hstop
  | cons next rest =>
    simp [matching_engine_step, hr, hq] at hstop

theorem drain_on_shutdown_witness :
    (matching_engine_step^[3]
      (request_shutdown
        (⟨[⟨"sell", 101, 10⟩, ⟨"buy", 99, 5⟩], false, 0, Book.empty, true, []⟩
          : Engine Int))).applied
      = [⟨"sell", 101, 10⟩, ⟨"buy", 99, 5⟩] :=
  (drain_on_shutdown
    (⟨[⟨"sell", 101, 10⟩, ⟨"buy", 99, 5⟩], false, 0, Book.empty, true, []⟩ : Engine Int)
    rfl).2.2.2.2.1

/-- C8, malformed input is rejected without touching state: when the three fields side,
price and quantity cannot all be extracted in that order from the received text, the
handler replies exactly `Invalid order format` with a newline and neither `submit_order`
nor `process_order` is called, so `order_queue` and both maps (the whole state) are
unchanged; when they can, it replies exactly `Order received` with a newline and hands
exactly one order with those three values to the engine: `client_handler` appends it to
`order_queue` and touches nothing else, the handler of the direct variant passes it to
`process_order`.  The text `buy abc 10` is rejected as soon as the price conversion
fails on `abc 10`. -/
theorem malformed_input_rejected {α : Type} [LinearOrder α]
    (readPrice : List Char → Option (α × List Char))
    (readInt : List Char → Option (Int × List Char)) (s : Engine α) (line : String) :
    (extract readPrice readInt line = none →
      client_handler readPrice readInt s line = (s, "Invalid order format\n") ∧
      main_handler readPrice readInt s.book line = (s.book, "Invalid order format\n")) ∧
    (∀ side price quantity, extract readPrice readInt line = some (side, price, quantity) →
      (client_handler readPrice readInt s line).2 = "Order received\n" ∧
      (client_handler readPrice readInt s line).1
        = { s with order_queue := s.order_queue ++ [⟨side, price, quantity⟩] } ∧
      main_handler readPrice readInt s.book line
        = (process_order s.book ⟨side, price, quantity⟩, "Order received\n")) ∧
    (readPrice "abc 10".toList = none →
      extract readPrice readInt "buy abc 10" = none ∧
      client_handler readPrice readInt s "buy abc 10" = (s, "Invalid order format\n")) := by
  refine ⟨fun h => ?_, fun side price quantity h => ?_, fun h => ?_⟩
  · simp [client_handler, main_handler, h]
  · simp [client_handler, main_handler, h, submit_order]
  · have h1 : readWord "buy abc 10".toList = some ("buy", " abc 10".toList) := by decide
    have h2 : skipWs " abc 10".toList = "abc 10".toList := by decide
    have h3 : extract readPrice readInt "buy abc 10" = none := by
      simp only [extract, h1, h2, h]
    refine ⟨h3, ?_⟩
    simp only [client_handler, h3]

theorem malformed_input_rejected_witness :
    client_handler readDecimal readDecimal (Engine.init : Engine Int) "buy abc 10"
        = (Engine.init, "Invalid order format\n") ∧
      (client_handler readDecimal readDecimal (Engine.init : Engine Int) "buy 100 10").1
        = { (Engine.init : Engine Int) with order_queue := [⟨"buy", 100, 10⟩] } :=
  ⟨((malformed_input_rejected readDecimal readDecimal (Engine.init : Engine Int)
      "buy abc 10").1 (by decide)).1,
    ((malformed_input_rejected readDecimal readDecimal (Engine.init : Engine Int)
      "buy 100 10").2.1 "buy" 100 10 (by decide)).2.1⟩

end OrderBook
